import Mathlib

/-!
Shallow embedding of the word-normalization core of `src/main.py`
(the `process_icelandic_word` pipeline and its `_rule_based_process`
fallback), together with proofs of the specified properties.

Strings are modelled as `List Char` (Python strings are sequences of
code points).  Python's `str.lower` and the regex classes `\w` / `\s`
are modelled faithfully on the character repertoire the program works
with: ASCII plus the Latin-1 block, which contains every Icelandic
letter (á é í ó ú ý ð þ æ ö and their capitals).
-/

namespace ITM

/-- Lowercasing table: Python `str.lower` restricted to ASCII and the
Latin-1 block (uppercase `À`..`Þ` except the multiplication sign map to
their lowercase forms 32 code points higher, exactly as in Unicode). -/
def lowerPairs : List (Char × Char) :=
  [('A','a'),('B','b'),('C','c'),('D','d'),('E','e'),('F','f'),('G','g'),
   ('H','h'),('I','i'),('J','j'),('K','k'),('L','l'),('M','m'),('N','n'),
   ('O','o'),('P','p'),('Q','q'),('R','r'),('S','s'),('T','t'),('U','u'),
   ('V','v'),('W','w'),('X','x'),('Y','y'),('Z','z'),
   ('À','à'),('Á','á'),('Â','â'),('Ã','ã'),('Ä','ä'),('Å','å'),('Æ','æ'),
   ('Ç','ç'),('È','è'),('É','é'),('Ê','ê'),('Ë','ë'),('Ì','ì'),('Í','í'),
   ('Î','î'),('Ï','ï'),('Ð','ð'),('Ñ','ñ'),('Ò','ò'),('Ó','ó'),('Ô','ô'),
   ('Õ','õ'),('Ö','ö'),('Ø','ø'),('Ù','ù'),('Ú','ú'),('Û','û'),('Ü','ü'),
   ('Ý','ý'),('Þ','þ')]

/-- Lowercase one character (model of Python `str.lower`, per code point). -/
def lowerChar (c : Char) : Char :=
  (lowerPairs.lookup c).getD c

/-- Model of the regex class `\w` (word character) on ASCII + Latin-1:
ASCII alphanumerics, underscore, and the Latin-1 letters
(ª µ º and the À..ÿ range minus × and ÷). -/
def isWordChar (c : Char) : Bool :=
  c.isAlphanum || c == '_' ||
  (decide (192 ≤ c.toNat) && decide (c.toNat ≤ 255) &&
    decide (c.toNat ≠ 215) && decide (c.toNat ≠ 247)) ||
  c.toNat == 170 || c.toNat == 181 || c.toNat == 186

/-- Model of the regex class `\s` (whitespace) on ASCII + Latin-1. -/
def isSpaceChar (c : Char) : Bool :=
  c == ' ' || c == '\t' || c == '\n' || c == '\r' ||
  c.toNat == 11 || c.toNat == 12 || c.toNat == 133 || c.toNat == 160

/-- Python `word.lower()`. -/
def lowerWord (w : List Char) : List Char :=
  w.map lowerChar

/-- Python `re.sub(r'[^\w\s]', '', word)`: keep exactly the word
characters and the whitespace characters. -/
def cleanWord (w : List Char) : List Char :=
  w.filter (fun c => isWordChar c || isSpaceChar c)

/-- Python `w.endswith(s)`. -/
def endswith (w s : List Char) : Bool :=
  w.drop (w.length - s.length) == s

/-- The `NOUN_ENDINGS` dict of `src/main.py`, with Python dict-literal
semantics applied: a duplicated key keeps its first insertion position
and its last value (the duplicated keys `ins`, `in`, `unum`, `anna` all
carry the same value `i`, so nothing changes beyond deduplication). -/
def NOUN_ENDINGS : List (List Char × List Char) :=
  [("inn".toList, "i".toList),
   ("inum".toList, "i".toList),
   ("ins".toList, "i".toList),
   ("in".toList, "i".toList),
   ("ina".toList, "i".toList),
   ("inni".toList, "i".toList),
   ("innar".toList, "i".toList),
   ("ið".toList, "i".toList),
   ("inu".toList, "i".toList),
   ("arnir".toList, "i".toList),
   ("ana".toList, "i".toList),
   ("unum".toList, "i".toList),
   ("anna".toList, "i".toList),
   ("irnar".toList, "i".toList),
   ("ar".toList, "".toList),
   ("um".toList, "ur".toList),
   ("a".toList, "i".toList),
   ("u".toList, "a".toList),
   ("i".toList, "ur".toList)]

/-- The `VERB_ENDINGS` dict of `src/main.py` (no duplicate keys). -/
def VERB_ENDINGS : List (List Char × List Char) :=
  [("a".toList, "a".toList),
   ("ar".toList, "a".toList),
   ("um".toList, "a".toList),
   ("ið".toList, "a".toList),
   ("ir".toList, "a".toList),
   ("aði".toList, "a".toList),
   ("aðir".toList, "a".toList),
   ("uðum".toList, "a".toList),
   ("uðuð".toList, "a".toList),
   ("uðu".toList, "a".toList),
   ("ók".toList, "aka".toList),
   ("fór".toList, "fara".toList),
   ("kom".toList, "koma".toList),
   ("tók".toList, "taka".toList)]

/-- The `question_words` dict inside `process_icelandic_word`. -/
def question_words : List (List Char × List Char) :=
  [("hvað".toList, "hvað".toList),
   ("hvaða".toList, "hvað".toList),
   ("hver".toList, "hver".toList),
   ("hvers".toList, "hver".toList),
   ("hverjum".toList, "hver".toList),
   ("hverjir".toList, "hver".toList),
   ("hverjar".toList, "hver".toList),
   ("hvar".toList, "hvar".toList),
   ("hvernig".toList, "hvernig".toList)]

/-- The per-rule test of `_rule_based_process`:
`clean_word.endswith(ending) and len(clean_word) > len(ending)`. -/
def properMatch (w : List Char) (r : List Char × List Char) : Bool :=
  endswith w r.1 && decide (r.1.length < w.length)

/-- `_rule_based_process(clean_word, original_word)` of `src/main.py`:
lowercase, return the original word if empty, scan the verb table then
the noun table for the first proper-suffix match, otherwise return the
lowercased word. -/
def _rule_based_process (clean_word original_word : List Char) : List Char :=
  if lowerWord clean_word = [] then original_word
  else
    match VERB_ENDINGS.find? (fun r => properMatch (lowerWord clean_word) r) with
    | some r =>
      (lowerWord clean_word).take ((lowerWord clean_word).length - r.1.length)
        ++ r.2
    | none =>
      match NOUN_ENDINGS.find? (fun r => properMatch (lowerWord clean_word) r) with
      | some r =>
        if r.2 = [] then
          (lowerWord clean_word).take
            ((lowerWord clean_word).length - r.1.length)
        else
          (lowerWord clean_word).take
            ((lowerWord clean_word).length - r.1.length) ++ r.2
      | none => lowerWord clean_word

/-- Outcome of one attempt of the Reynir parser adapter on the cleaned
token: a successful parse yielding the first terminal's lemma; a parse
that produces no sentence, no tree or zero terminals; or a runtime
exception raised during analysis. -/
inductive AdapterResult : Type where
  | success : List Char → AdapterResult
  | parseFail : AdapterResult
  | raised : AdapterResult

/-- `process_icelandic_word(word)` of `src/main.py`, parameterized by
the external Reynir capability: `none` models `ImportError` (Reynir not
installed); `some f` models an installed adapter whose outcome on the
cleaned token is `f`.  The `ImportError` and exception handlers pass the
original (uncleaned) word to `_rule_based_process`, exactly as the
source does; the parse-failure path passes the cleaned word. -/
def process_icelandic_word
    (adapter : Option (List Char → AdapterResult)) (word : List Char) :
    List Char :=
  match question_words.lookup (lowerWord (cleanWord word)) with
  | some canon => canon
  | none =>
    match adapter with
    | none => _rule_based_process word word
    | some f =>
      if cleanWord word = [] then word
      else
        match f (cleanWord word) with
        | AdapterResult.success lem => lem
        | AdapterResult.parseFail => _rule_based_process (cleanWord word) word
        | AdapterResult.raised => _rule_based_process word word

/-- Every way the pipeline can produce its value: a question-word
override, the original word (empty-after-cleaning), a successful
adapter lemma, or one of the two rule-based fallback calls.  Used to
state that every failure path is recovered internally. -/
def RecoveredResult
    (adapter : Option (List Char → AdapterResult)) (word out : List Char) :
    Prop :=
  (∃ canon, question_words.lookup (lowerWord (cleanWord word)) = some canon ∧
      out = canon) ∨
  out = word ∨
  (∃ f lem, adapter = some f ∧ f (cleanWord word) = AdapterResult.success lem ∧
      out = lem) ∨
  out = _rule_based_process (cleanWord word) word ∨
  out = _rule_based_process word word

/-! ### Helper lemmas -/

theorem lookup_mem {α β : Type} [BEq α] [LawfulBEq α] {k : α} {v : β} :
    ∀ {l : List (α × β)}, l.lookup k = some v → (k, v) ∈ l := by
  intro l
  induction l with
  | nil => intro h; simp [List.lookup] at h
  | cons p ps ih =>
    intro h
    obtain ⟨a, b⟩ := p
    by_cases hk : k = a
    · subst hk
      simp [List.lookup] at h
      subst h
      exact List.mem_cons_self _ _
    · have hkb : (k == a) = false := beq_eq_false_iff_ne.mpr hk
      simp [List.lookup, hkb] at h
      exact List.mem_cons_of_mem _ (ih h)

theorem find_first {α : Type} (p : α → Bool) :
    ∀ (l : List α) (i : Nat) (hi : i < l.length),
      p (l.get ⟨i, hi⟩) = true →
      (∀ j (hj : j < l.length), j < i → p (l.get ⟨j, hj⟩) = false) →
      l.find? p = some (l.get ⟨i, hi⟩) := by
  intro l
  induction l with
  | nil => intro i hi _ _; exact absurd hi (by simp)
  | cons a t ih =>
    intro i hi hp hfirst
    cases i with
    | zero =>
      have hp' : p a = true := hp
      show List.find? p (a :: t) = some a
      rw [List.find?_cons, hp']
    | succ n =>
      have ha : p a = false := hfirst 0 (by simp) (Nat.succ_pos n)
      rw [List.find?_cons, ha]
      have hn : n < t.length := Nat.lt_of_succ_lt_succ hi
      have hpn : p (t.get ⟨n, hn⟩) = true := hp
      have hfn : ∀ j (hj : j < t.length), j < n → p (t.get ⟨j, hj⟩) = false := by
        intro j hj hjn
        exact hfirst (j + 1) (by simpa using Nat.succ_lt_succ hj)
          (Nat.succ_lt_succ hjn)
      exact ih n hn hpn hfn

theorem lowerPairs_keys_word : ∀ p ∈ lowerPairs, isWordChar p.1 = true := by
  decide

theorem lowerPairs_values_fixed :
    ∀ p ∈ lowerPairs, lowerPairs.lookup p.2 = none := by
  decide

theorem lowerChar_of_not_word {c : Char} (h : isWordChar c = false) :
    lowerChar c = c := by
  unfold lowerChar
  cases hl : lowerPairs.lookup c with
  | none => rfl
  | some l =>
    have hk := lowerPairs_keys_word (c, l) (lookup_mem hl)
    exact absurd (hk.symm.trans h) (by decide)

theorem lowerChar_idem (c : Char) : lowerChar (lowerChar c) = lowerChar c := by
  unfold lowerChar
  cases hl : lowerPairs.lookup c with
  | none => simp [hl]
  | some l =>
    have hfix := lowerPairs_values_fixed (c, l) (lookup_mem hl)
    simp [hl, hfix]

theorem lowerWord_idem (w : List Char) :
    lowerWord (lowerWord w) = lowerWord w := by
  induction w with
  | nil => rfl
  | cons c t ih =>
    simp only [lowerWord, List.map_cons] at ih ⊢
    rw [lowerChar_idem]
    exact congrArg _ ih

theorem lowerWord_id_of_nonword {w : List Char}
    (h : ∀ c ∈ w, isWordChar c = false) : lowerWord w = w := by
  induction w with
  | nil => rfl
  | cons c t ih =>
    simp only [lowerWord, List.map_cons]
    rw [lowerChar_of_not_word (h c (List.mem_cons_self _ _))]
    exact congrArg _ (ih (fun x hx => h x (List.mem_cons_of_mem _ hx)))

theorem lowerWord_append (a b : List Char) :
    lowerWord (a ++ b) = lowerWord a ++ lowerWord b :=
  List.map_append _ _ _

theorem lowerWord_take (w : List Char) (n : Nat) :
    lowerWord (w.take n) = (lowerWord w).take n :=
  List.map_take _ _ _

theorem verb_suffix_word :
    ∀ r ∈ VERB_ENDINGS, ∀ c ∈ r.1, isWordChar c = true := by decide

theorem noun_suffix_word :
    ∀ r ∈ NOUN_ENDINGS, ∀ c ∈ r.1, isWordChar c = true := by decide

theorem verb_suffix_ne_nil : ∀ r ∈ VERB_ENDINGS, r.1 ≠ [] := by decide

theorem noun_suffix_ne_nil : ∀ r ∈ NOUN_ENDINGS, r.1 ≠ [] := by decide

theorem verb_repl_ne_nil : ∀ r ∈ VERB_ENDINGS, r.2 ≠ [] := by decide

theorem verb_repl_lower : ∀ r ∈ VERB_ENDINGS, lowerWord r.2 = r.2 := by decide

theorem noun_repl_lower : ∀ r ∈ NOUN_ENDINGS, lowerWord r.2 = r.2 := by decide

theorem question_values_lower :
    ∀ p ∈ question_words, lowerWord p.2 = p.2 := by decide

theorem question_values_ne_nil : ∀ p ∈ question_words, p.2 ≠ [] := by decide

theorem endswith_true {w s : List Char} (h : endswith w s = true) :
    w.drop (w.length - s.length) = s := by
  simpa [endswith] using h

theorem properMatch_false_of_nonword {w : List Char}
    (hw : ∀ c ∈ w, isWordChar c = false) (r : List Char × List Char)
    (hs : r.1 ≠ []) (hsw : ∀ c ∈ r.1, isWordChar c = true) :
    properMatch w r = false := by
  cases hpm : properMatch w r with
  | false => rfl
  | true =>
    exfalso
    have hand : endswith w r.1 = true := by
      have h1 := hpm
      simp only [properMatch, Bool.and_eq_true] at h1
      exact h1.1
    have hdrop : w.drop (w.length - r.1.length) = r.1 := endswith_true hand
    obtain ⟨c, hc⟩ := List.exists_mem_of_ne_nil r.1 hs
    rw [← hdrop] at hc
    have hcw : c ∈ w := List.drop_subset _ _ hc
    have hfalse := hw c hcw
    rw [hdrop] at hc
    rw [hsw c hc] at hfalse
    exact Bool.noConfusion hfalse

theorem no_table_match {w : List Char} (hw : ∀ c ∈ w, isWordChar c = false) :
    VERB_ENDINGS.find? (fun r => properMatch w r) = none ∧
    NOUN_ENDINGS.find? (fun r => properMatch w r) = none := by
  constructor
  · exact List.find?_eq_none.mpr (fun r hr => by
      simp [properMatch_false_of_nonword hw r (verb_suffix_ne_nil r hr)
        (verb_suffix_word r hr)])
  · exact List.find?_eq_none.mpr (fun r hr => by
      simp [properMatch_false_of_nonword hw r (noun_suffix_ne_nil r hr)
        (noun_suffix_word r hr)])

theorem cleanWord_nil_chars {w : List Char} (h : cleanWord w = []) :
    ∀ c ∈ w, isWordChar c = false ∧ isSpaceChar c = false := by
  intro c hc
  have h1 := List.filter_eq_nil_iff.mp h c hc
  simpa using h1

theorem rule_based_ne_nil (clean orig : List Char)
    (h : lowerWord clean ≠ []) : _rule_based_process clean orig ≠ [] := by
  unfold _rule_based_process
  rw [if_neg h]
  cases hv : VERB_ENDINGS.find? (fun r => properMatch (lowerWord clean) r) with
  | some r =>
    intro hcontra
    exact verb_repl_ne_nil r (List.mem_of_find?_eq_some hv)
      (List.append_eq_nil.mp hcontra).2
  | none =>
    cases hn : NOUN_ENDINGS.find? (fun r => properMatch (lowerWord clean) r) with
    | some r =>
      have hpm : properMatch (lowerWord clean) r = true := List.find?_some hn
      have hlt : r.1.length < (lowerWord clean).length := by
        simp only [properMatch, Bool.and_eq_true, decide_eq_true_eq] at hpm
        exact hpm.2
      show (if r.2 = [] then
          (lowerWord clean).take ((lowerWord clean).length - r.1.length)
        else
          (lowerWord clean).take ((lowerWord clean).length - r.1.length)
            ++ r.2) ≠ []
      by_cases h2 : r.2 = []
      · rw [if_pos h2]
        intro hcontra
        have hlen := congrArg List.length hcontra
        rw [List.length_take] at hlen
        simp only [List.length_nil] at hlen
        omega
      · rw [if_neg h2]
        intro hcontra
        exact h2 (List.append_eq_nil.mp hcontra).2
    | none => exact h

theorem rule_based_lower (clean orig : List Char)
    (h : lowerWord clean = [] → lowerWord orig = orig) :
    lowerWord (_rule_based_process clean orig) = _rule_based_process clean orig := by
  unfold _rule_based_process
  by_cases hnil : lowerWord clean = []
  · rw [if_pos hnil]
    exact h hnil
  · rw [if_neg hnil]
    cases hv : VERB_ENDINGS.find? (fun r => properMatch (lowerWord clean) r) with
    | some r =>
      show lowerWord ((lowerWord clean).take _ ++ r.2) = _
      rw [lowerWord_append, lowerWord_take, lowerWord_idem,
        verb_repl_lower r (List.mem_of_find?_eq_some hv)]
    | none =>
      cases hn : NOUN_ENDINGS.find? (fun r => properMatch (lowerWord clean) r) with
      | some r =>
        show lowerWord
            (if r.2 = [] then
              (lowerWord clean).take ((lowerWord clean).length - r.1.length)
            else
              (lowerWord clean).take ((lowerWord clean).length - r.1.length)
                ++ r.2) =
          (if r.2 = [] then
            (lowerWord clean).take ((lowerWord clean).length - r.1.length)
          else
            (lowerWord clean).take ((lowerWord clean).length - r.1.length)
              ++ r.2)
        by_cases h2 : r.2 = []
        · rw [if_pos h2, lowerWord_take, lowerWord_idem]
        · rw [if_neg h2, lowerWord_append, lowerWord_take, lowerWord_idem,
            noun_repl_lower r (List.mem_of_find?_eq_some hn)]
      | none => exact lowerWord_idem _

/-! ### Equation lemmas for the pipeline -/

theorem process_eq_question (a : Option (List Char → AdapterResult))
    (w canon : List Char)
    (hq : question_words.lookup (lowerWord (cleanWord w)) = some canon) :
    process_icelandic_word a w = canon := by
  unfold process_icelandic_word
  rw [hq]

theorem process_eq_noreynir (w : List Char)
    (hq : question_words.lookup (lowerWord (cleanWord w)) = none) :
    process_icelandic_word none w = _rule_based_process w w := by
  unfold process_icelandic_word
  rw [hq]

theorem process_eq_empty (f : List Char → AdapterResult) (w : List Char)
    (hq : question_words.lookup (lowerWord (cleanWord w)) = none)
    (hc : cleanWord w = []) :
    process_icelandic_word (some f) w = w := by
  unfold process_icelandic_word
  rw [hq]
  show (if cleanWord w = [] then w else _) = w
  rw [if_pos hc]

theorem process_eq_adapter (f : List Char → AdapterResult) (w : List Char)
    (hq : question_words.lookup (lowerWord (cleanWord w)) = none)
    (hc : cleanWord w ≠ []) :
    process_icelandic_word (some f) w =
      (match f (cleanWord w) with
       | AdapterResult.success lem => lem
       | AdapterResult.parseFail => _rule_based_process (cleanWord w) w
       | AdapterResult.raised => _rule_based_process w w) := by
  unfold process_icelandic_word
  rw [hq]
  show (if cleanWord w = [] then w
    else match f (cleanWord w) with
      | AdapterResult.success lem => lem
      | AdapterResult.parseFail => _rule_based_process (cleanWord w) w
      | AdapterResult.raised => _rule_based_process w w) = _
  rw [if_neg hc]

theorem process_eq_success (f : List Char → AdapterResult) (w lem : List Char)
    (hq : question_words.lookup (lowerWord (cleanWord w)) = none)
    (hc : cleanWord w ≠ [])
    (hf : f (cleanWord w) = AdapterResult.success lem) :
    process_icelandic_word (some f) w = lem := by
  rw [process_eq_adapter f w hq hc, hf]

theorem process_eq_parsefail (f : List Char → AdapterResult) (w : List Char)
    (hq : question_words.lookup (lowerWord (cleanWord w)) = none)
    (hc : cleanWord w ≠ [])
    (hf : f (cleanWord w) = AdapterResult.parseFail) :
    process_icelandic_word (some f) w = _rule_based_process (cleanWord w) w := by
  rw [process_eq_adapter f w hq hc, hf]

theorem process_eq_raised (f : List Char → AdapterResult) (w : List Char)
    (hq : question_words.lookup (lowerWord (cleanWord w)) = none)
    (hc : cleanWord w ≠ [])
    (hf : f (cleanWord w) = AdapterResult.raised) :
    process_icelandic_word (some f) w = _rule_based_process w w := by
  rw [process_eq_adapter f w hq hc, hf]

/-! ### The specified properties -/

/-- C1: Totality: for every non-empty input string, the normalization
pipeline `process_icelandic_word` returns a string obtained from one of
its internal recovery paths — a question-word override, the original
word (empty after cleaning), a successful adapter lemma, or one of the
two rule-based fallback calls — so adapter unavailability, parse
failure and empty-after-cleaning are all recovered internally and no
exception escapes to the caller. -/
theorem process_icelandic_word_total
    (a : Option (List Char → AdapterResult)) (w : List Char) (_h : w ≠ []) :
    RecoveredResult a w (process_icelandic_word a w) := by
  cases hq : question_words.lookup (lowerWord (cleanWord w)) with
  | some canon =>
    exact Or.inl ⟨canon, hq, process_eq_question a w canon hq⟩
  | none =>
    cases a with
    | none =>
      exact Or.inr (Or.inr (Or.inr (Or.inr (process_eq_noreynir w hq))))
    | some f =>
      by_cases hc : cleanWord w = []
      · exact Or.inr (Or.inl (process_eq_empty f w hq hc))
      · cases hf : f (cleanWord w) with
        | success lem =>
          exact Or.inr (Or.inr (Or.inl
            ⟨f, lem, rfl, hf, process_eq_success f w lem hq hc hf⟩))
        | parseFail =>
          exact Or.inr (Or.inr (Or.inr (Or.inl
            (process_eq_parsefail f w hq hc hf))))
        | raised =>
          exact Or.inr (Or.inr (Or.inr (Or.inr
            (process_eq_raised f w hq hc hf))))

/-- Witness for C1 at the concrete input `"orð"` with the adapter absent. -/
theorem process_icelandic_word_total_w :
    RecoveredResult none "orð".toList (process_icelandic_word none "orð".toList) :=
  process_icelandic_word_total none "orð".toList (by decide)

/-- C2: Override precedence: whenever the punctuation-stripped,
lowercased input is a key of the question-word table, the pipeline
returns that entry's canonical form for every adapter; in particular
`normalize("Hvað?")` and `normalize("HVAÐ")` both return `"hvað"`
whether or not the adapter is available. -/
theorem question_word_override :
    (∀ (a : Option (List Char → AdapterResult)) (w canon : List Char),
        question_words.lookup (lowerWord (cleanWord w)) = some canon →
        process_icelandic_word a w = canon) ∧
    (∀ a, process_icelandic_word a "Hvað?".toList = "hvað".toList) ∧
    (∀ a, process_icelandic_word a "HVAÐ".toList = "hvað".toList) := by
  refine ⟨fun a w canon hq => process_eq_question a w canon hq,
    fun a => ?_, fun a => ?_⟩
  · exact process_eq_question a _ _ (by decide)
  · exact process_eq_question a _ _ (by decide)

/-- Witness for C2 at the concrete input `"Hvaða??"`. -/
theorem question_word_override_w :
    process_icelandic_word none "Hvaða??".toList = "hvað".toList :=
  question_word_override.1 none "Hvaða??".toList "hvað".toList (by decide)

/-- C3: Rule-based algorithm: on a word whose lowercasing is non-empty,
`_rule_based_process` returns the verb-table result of the first
matching verb entry (in table order, proper-suffix test, regardless of
the noun table); if no verb entry matches, the noun-table result of the
first matching noun entry (just the stem when the replacement is
empty); and the lowercased word unchanged if no entry of either table
matches. -/
theorem rule_based_first_match (clean orig : List Char)
    (hne : lowerWord clean ≠ []) :
    (∀ i (hi : i < VERB_ENDINGS.length),
        properMatch (lowerWord clean) (VERB_ENDINGS.get ⟨i, hi⟩) = true →
        (∀ j (hj : j < VERB_ENDINGS.length), j < i →
          properMatch (lowerWord clean) (VERB_ENDINGS.get ⟨j, hj⟩) = false) →
        _rule_based_process clean orig =
          (lowerWord clean).take
              ((lowerWord clean).length - (VERB_ENDINGS.get ⟨i, hi⟩).1.length)
            ++ (VERB_ENDINGS.get ⟨i, hi⟩).2) ∧
    (∀ i (hi : i < NOUN_ENDINGS.length),
        (∀ r ∈ VERB_ENDINGS, properMatch (lowerWord clean) r = false) →
        properMatch (lowerWord clean) (NOUN_ENDINGS.get ⟨i, hi⟩) = true →
        (∀ j (hj : j < NOUN_ENDINGS.length), j < i →
          properMatch (lowerWord clean) (NOUN_ENDINGS.get ⟨j, hj⟩) = false) →
        _rule_based_process clean orig =
          (if (NOUN_ENDINGS.get ⟨i, hi⟩).2 = [] then
            (lowerWord clean).take
              ((lowerWord clean).length - (NOUN_ENDINGS.get ⟨i, hi⟩).1.length)
          else
            (lowerWord clean).take
                ((lowerWord clean).length - (NOUN_ENDINGS.get ⟨i, hi⟩).1.length)
              ++ (NOUN_ENDINGS.get ⟨i, hi⟩).2)) ∧
    ((∀ r ∈ VERB_ENDINGS, properMatch (lowerWord clean) r = false) →
      (∀ r ∈ NOUN_ENDINGS, properMatch (lowerWord clean) r = false) →
      _rule_based_process clean orig = lowerWord clean) := by
  refine ⟨?_, ?_, ?_⟩
  · intro i hi hp hfirst
    have hfind := find_first (fun r => properMatch (lowerWord clean) r)
      VERB_ENDINGS i hi hp hfirst
    unfold _rule_based_process
    rw [if_neg hne, hfind]
  · intro i hi hverb hp hfirst
    have hvnone :
        VERB_ENDINGS.find? (fun r => properMatch (lowerWord clean) r) = none :=
      List.find?_eq_none.mpr (fun r hr => by simp [hverb r hr])
    have hfind := find_first (fun r => properMatch (lowerWord clean) r)
      NOUN_ENDINGS i hi hp hfirst
    unfold _rule_based_process
    rw [if_neg hne, hvnone, hfind]
  · intro hverb hnoun
    have hvnone :
        VERB_ENDINGS.find? (fun r => properMatch (lowerWord clean) r) = none :=
      List.find?_eq_none.mpr (fun r hr => by simp [hverb r hr])
    have hnnone :
        NOUN_ENDINGS.find? (fun r => properMatch (lowerWord clean) r) = none :=
      List.find?_eq_none.mpr (fun r hr => by simp [hnoun r hr])
    unfold _rule_based_process
    rw [if_neg hne, hvnone, hnnone]

/-- Witness for C3 at the concrete input `"kallar"`: the verb entry
`ar → a` at index 1 is the first match and yields `"kalla"`. -/
theorem rule_based_first_match_w :
    _rule_based_process "kallar".toList "kallar".toList = "kalla".toList := by
  have h := (rule_based_first_match "kallar".toList "kallar".toList
      (by decide)).1 1 (by decide) (by decide)
    (by
      intro j hj hj1
      have hj0 : j = 0 := by omega
      subst hj0
      have h0 : properMatch (lowerWord "kallar".toList)
          (VERB_ENDINGS.get ⟨0, by decide⟩) = false := by decide
      exact h0)
  exact h.trans (by decide)

/-- C4 counterexample: with the adapter not installed, the pipeline
hands the ORIGINAL word (punctuation included) to the rule-based
normalizer, not the cleaned form: on `"bla."` it returns `"bla."`,
while the rule-based normalizer on the cleaned form `"bla"` returns
`"bla"`. -/
theorem adapter_fallback_cex :
    process_icelandic_word none "bla.".toList ≠
      _rule_based_process (cleanWord "bla.".toList) "bla.".toList := by
  decide

/-- C4 amended: for a non-question-word input, when the adapter parse
fails (no tree / zero terminals) on the non-empty cleaned form the
output equals the rule-based normalizer applied to the CLEANED form;
when the adapter is not installed, or raises a runtime error, the
output equals the rule-based normalizer applied to the ORIGINAL
(uncleaned) input — the two coincide only when cleaning changes
nothing. -/
theorem adapter_fallback (a : Option (List Char → AdapterResult))
    (w : List Char)
    (hq : question_words.lookup (lowerWord (cleanWord w)) = none) :
    (a = none → process_icelandic_word a w = _rule_based_process w w) ∧
    (∀ f, a = some f → cleanWord w ≠ [] →
        f (cleanWord w) = AdapterResult.parseFail →
        process_icelandic_word a w = _rule_based_process (cleanWord w) w) ∧
    (∀ f, a = some f → cleanWord w ≠ [] →
        f (cleanWord w) = AdapterResult.raised →
        process_icelandic_word a w = _rule_based_process w w) := by
  refine ⟨?_, ?_, ?_⟩
  · rintro rfl
    exact process_eq_noreynir w hq
  · rintro f rfl hc hf
    exact process_eq_parsefail f w hq hc hf
  · rintro f rfl hc hf
    exact process_eq_raised f w hq hc hf

/-- Witness for C4 (amended) at the concrete input `"bla."` with the
adapter absent. -/
theorem adapter_fallback_w :
    process_icelandic_word none "bla.".toList =
      _rule_based_process "bla.".toList "bla.".toList :=
  (adapter_fallback none "bla.".toList (by decide)).1 rfl

/-- C5: Proper-suffix guard: a token exactly equal to a suffix of the
verb or noun table fails that entry's match (stem length zero is never
allowed), and the rule-based result is never the empty word. -/
theorem proper_suffix_guard (r : List Char × List Char)
    (hr : r ∈ VERB_ENDINGS ∨ r ∈ NOUN_ENDINGS)
    (clean orig : List Char) (htok : lowerWord clean = r.1) :
    properMatch (lowerWord clean) r = false ∧
    _rule_based_process clean orig ≠ [] := by
  have hs : r.1 ≠ [] := by
    cases hr with
    | inl h => exact verb_suffix_ne_nil r h
    | inr h => exact noun_suffix_ne_nil r h
  constructor
  · rw [htok]
    simp [properMatch]
  · exact rule_based_ne_nil clean orig (by rw [htok]; exact hs)

/-- Witness for C5 at the concrete token `"ar"`, equal to the verb
suffix `ar`. -/
theorem proper_suffix_guard_w :
    properMatch (lowerWord "ar".toList) ("ar".toList, "a".toList) = false ∧
    _rule_based_process "ar".toList "ar".toList ≠ [] :=
  proper_suffix_guard ("ar".toList, "a".toList) (Or.inl (by decide))
    "ar".toList "ar".toList (by decide)

/-- C6: Empty-after-cleaning: an input whose cleaning removes every
character (pure punctuation) is returned unchanged by the pipeline,
whatever the adapter. -/
theorem empty_after_cleaning (a : Option (List Char → AdapterResult))
    (w : List Char) (hne : w ≠ []) (hcl : cleanWord w = []) :
    process_icelandic_word a w = w := by
  have hchars : ∀ c ∈ w, isWordChar c = false :=
    fun c hc => (cleanWord_nil_chars hcl c hc).1
  have hq : question_words.lookup (lowerWord (cleanWord w)) = none := by
    rw [hcl]
    decide
  cases a with
  | some f => exact process_eq_empty f w hq hcl
  | none =>
    rw [process_eq_noreynir w hq]
    have hid : lowerWord w = w := lowerWord_id_of_nonword hchars
    have hm := no_table_match (w := lowerWord w) (by rw [hid]; exact hchars)
    unfold _rule_based_process
    rw [if_neg (by rw [hid]; exact hne), hm.1, hm.2]
    exact hid

/-- Witness for C6 at the concrete input `"..."` with the adapter
absent. -/
theorem empty_after_cleaning_w :
    process_icelandic_word none "...".toList = "...".toList :=
  empty_after_cleaning none "...".toList (by decide) (by decide)

/-- C7 counterexample: a successful adapter parse is returned verbatim,
so the pipeline's output is NOT always lowercase: an adapter returning
the lemma `"Á"` makes the pipeline return `"Á"`, which differs from its
own lowercasing. -/
theorem lowercase_output_cex :
    lowerWord (process_icelandic_word
        (some (fun _ => AdapterResult.success "Á".toList)) "ba".toList) ≠
      process_icelandic_word
        (some (fun _ => AdapterResult.success "Á".toList)) "ba".toList := by
  decide

/-- C7 amended: the pipeline's output is lowercase (equal to its own
lowercasing) whenever it is not produced by a successful adapter parse:
the question-word overrides, the empty-after-cleaning path and both
rule-based fallback paths only produce lowercase output; a successful
parse returns the adapter's lemma verbatim, which need not be
lowercase. -/
theorem lowercase_output (a : Option (List Char → AdapterResult))
    (w : List Char)
    (hns : ∀ f, a = some f → ∀ lem, f (cleanWord w) ≠ AdapterResult.success lem) :
    lowerWord (process_icelandic_word a w) = process_icelandic_word a w := by
  cases hq : question_words.lookup (lowerWord (cleanWord w)) with
  | some canon =>
    rw [process_eq_question a w canon hq]
    exact question_values_lower _ (lookup_mem hq)
  | none =>
    cases a with
    | none =>
      rw [process_eq_noreynir w hq]
      exact rule_based_lower w w (fun h => by rw [List.map_eq_nil_iff.mp h]; rfl)
    | some f =>
      by_cases hc : cleanWord w = []
      · rw [process_eq_empty f w hq hc]
        exact lowerWord_id_of_nonword
          (fun c hcm => (cleanWord_nil_chars hc c hcm).1)
      · cases hf : f (cleanWord w) with
        | success lem => exact absurd hf (hns f rfl lem)
        | parseFail =>
          rw [process_eq_parsefail f w hq hc hf]
          exact rule_based_lower (cleanWord w) w
            (fun h => absurd (List.map_eq_nil_iff.mp h) hc)
        | raised =>
          rw [process_eq_raised f w hq hc hf]
          exact rule_based_lower w w (fun h => by rw [List.map_eq_nil_iff.mp h]; rfl)

/-- Witness for C7 (amended) at the concrete input `"KALLAR!"` with the
adapter absent. -/
theorem lowercase_output_w :
    lowerWord (process_icelandic_word none "KALLAR!".toList) =
      process_icelandic_word none "KALLAR!".toList :=
  lowercase_output none "KALLAR!".toList (fun _ h => nomatch h)

/-- C8: Idempotence is not guaranteed: with the adapter absent there is
a word whose second normalization differs from its first
(`"hesturinn" → "hesturi" → "hesturur"`). -/
theorem idempotence_not_guaranteed :
    ∃ w : List Char,
      process_icelandic_word none (process_icelandic_word none w) ≠
        process_icelandic_word none w :=
  ⟨"hesturinn".toList, by decide⟩

/-- C9: Dead noun rule: the only noun entry with an empty replacement
is `ar → ""`, and whenever the noun scan would select an entry with an
empty replacement the verb scan (run first) has already matched, so
`_rule_based_process` never returns through the bare-stem branch. -/
theorem dead_noun_rule :
    NOUN_ENDINGS.filter (fun r => r.2.isEmpty) =
      [("ar".toList, ([] : List Char))] ∧
    (∀ w : List Char,
        VERB_ENDINGS.find? (fun r => properMatch w r) = none →
        ∀ r, NOUN_ENDINGS.find? (fun r => properMatch w r) = some r →
        r.2 ≠ []) := by
  constructor
  · decide
  · intro w hverb r hnoun hr2
    have hmem : r ∈ NOUN_ENDINGS := List.mem_of_find?_eq_some hnoun
    have hpm : properMatch w r = true := List.find?_some hnoun
    have hfilter : r ∈ NOUN_ENDINGS.filter (fun r => r.2.isEmpty) :=
      List.mem_filter.mpr ⟨hmem, by simp [hr2]⟩
    have hfeq : NOUN_ENDINGS.filter (fun r => r.2.isEmpty) =
        [("ar".toList, ([] : List Char))] := by decide
    rw [hfeq] at hfilter
    simp at hfilter
    have har : properMatch w ("ar".toList, "a".toList) = false := by
      have hmem2 : ("ar".toList, "a".toList) ∈ VERB_ENDINGS := by decide
      have h1 := List.find?_eq_none.mp hverb _ hmem2
      simpa using h1
    rw [hfilter] at hpm
    have hpm2 : properMatch w ("ar".toList, "a".toList) = true := hpm
    rw [hpm2] at har
    exact Bool.noConfusion har

/-- Witness for C9 at the concrete word `"hesturinn"`, whose noun match
is the entry `inn → i`. -/
theorem dead_noun_rule_w : ("inn".toList, "i".toList).2 ≠ ([] : List Char) :=
  dead_noun_rule.2 "hesturinn".toList (by decide)
    ("inn".toList, "i".toList) (by decide)

/-- C10: Non-empty output: for every non-empty input, when the adapter
is absent or does not succeed, the pipeline's output is a non-empty
string, so downstream lookup and caching always receive a usable
key. -/
theorem nonempty_output (a : Option (List Char → AdapterResult))
    (w : List Char) (hw : w ≠ [])
    (hns : ∀ f, a = some f → ∀ lem, f (cleanWord w) ≠ AdapterResult.success lem) :
    process_icelandic_word a w ≠ [] := by
  have hlw : lowerWord w ≠ [] := fun h => hw (List.map_eq_nil_iff.mp h)
  cases hq : question_words.lookup (lowerWord (cleanWord w)) with
  | some canon =>
    rw [process_eq_question a w canon hq]
    exact question_values_ne_nil _ (lookup_mem hq)
  | none =>
    cases a with
    | none =>
      rw [process_eq_noreynir w hq]
      exact rule_based_ne_nil w w hlw
    | some f =>
      by_cases hc : cleanWord w = []
      · rw [process_eq_empty f w hq hc]
        exact hw
      · cases hf : f (cleanWord w) with
        | success lem => exact absurd hf (hns f rfl lem)
        | parseFail =>
          rw [process_eq_parsefail f w hq hc hf]
          exact rule_based_ne_nil (cleanWord w) w
            (fun h => hc (List.map_eq_nil_iff.mp h))
        | raised =>
          rw [process_eq_raised f w hq hc hf]
          exact rule_based_ne_nil w w hlw

/-- Witness for C10 at the concrete input `"Bað"` with the adapter
absent. -/
theorem nonempty_output_w : process_icelandic_word none "Bað".toList ≠ [] :=
  nonempty_output none "Bað".toList (by decide) (fun _ h => nomatch h)

end ITM
